import Mathlib

/-!
Verification of the MSiD_Labs repository against its specification.

The development shallowly embeds the two Python modules:

* `lab4/classification.py` — confusion matrix and binary classification
  metrics.  Python integers are modelled as `ℤ`, the count matrix as
  `List (List ℕ)`, Python exceptions as the `PyError` type with
  fallible functions returning `Except PyError _`.  Python's negative
  list indexing (`xs[-1]` is the last element, an index below `-len`
  raises `IndexError`) is modelled by `pyIdx`.

* `lab3/lss.py` — polynomial least squares.  Real (numpy float)
  arithmetic is modelled exactly over `ℚ`; `np.linalg.inv` raising
  `LinAlgError("Singular matrix")` on a singular matrix is modelled by
  an explicit determinant test; string formatting of coefficients is
  modelled by `formatFixed` (fixed-point, round half to even, as
  Python's `format(v, '.pf')`).
-/

set_option maxRecDepth 8000

namespace MSiD

open scoped Matrix

/-- Python exceptions raised by the modelled code. -/
inductive PyError where
  | valueError (msg : String)
  | zeroDivisionError
  | indexError
  | linAlgError (msg : String)
deriving DecidableEq

deriving instance DecidableEq for Except

/-- Python list indexing for a list of length `n`: a nonnegative index `i`
is valid when `i < n`; a negative index `i` addresses position `n + i`
when `0 ≤ n + i`; anything else raises `IndexError` (modelled as `none`). -/
def pyIdx (n : ℕ) (i : ℤ) : Option ℕ :=
  if 0 ≤ i then (if i < (n : ℤ) then some i.toNat else none)
  else (if 0 ≤ i + (n : ℤ) then some (i + (n : ℤ)).toNat else none)

/-- Cell `[a][p]` of a count matrix (total lookup; the matrices built by
`get_confusion_matrix` are `num_classes × num_classes`, so the default is
never taken on the indices we read). -/
def mget (m : List (List ℕ)) (a p : ℕ) : ℕ := (m.getD a []).getD p 0

/-- One iteration of the loop of `get_confusion_matrix`
(`lab4/classification.py`, lines 21-24): first the guard
`actual >= num_classes or predicted >= num_classes` raises
`ValueError("Invalid prediction classes!")`, otherwise
`matrix[actual][predicted] += 1` runs with Python indexing semantics. -/
def cmStep (num_classes : ℕ) (matrix : List (List ℕ)) (pair : ℤ × ℤ) :
    Except PyError (List (List ℕ)) :=
  if (num_classes : ℤ) ≤ pair.1 ∨ (num_classes : ℤ) ≤ pair.2 then
    .error (.valueError "Invalid prediction classes!")
  else
    match pyIdx num_classes pair.1, pyIdx num_classes pair.2 with
    | some a, some p =>
        .ok (matrix.set a ((matrix.getD a []).set p (mget matrix a p + 1)))
    | _, _ => .error .indexError

/-- The `for actual, predicted in zip(y_true, y_pred)` loop of
`get_confusion_matrix`: run `cmStep` on each pair in order, propagating the
first raised exception. -/
def cmLoop (num_classes : ℕ) : List (ℤ × ℤ) → List (List ℕ) →
    Except PyError (List (List ℕ))
  | [], matrix => .ok matrix
  | q :: rest, matrix =>
    match cmStep num_classes matrix q with
    | .error e => .error e
    | .ok matrix2 => cmLoop num_classes rest matrix2

/-- `get_confusion_matrix` from `lab4/classification.py`: the length check
comes first, then the matrix of zeros, then the counting loop over
`zip(y_true, y_pred)`. -/
def get_confusion_matrix (y_true y_pred : List ℤ) (num_classes : ℕ) :
    Except PyError (List (List ℕ)) :=
  if y_true.length ≠ y_pred.length then .error (.valueError "Invalid input shapes!")
  else cmLoop num_classes (y_true.zip y_pred)
    (List.replicate num_classes (List.replicate num_classes 0))

/-- `get_quality_factors` from `lab4/classification.py`: reads
`matrix[0][0], matrix[0][1], matrix[1][0], matrix[1][1]` of the 2×2
confusion matrix, i.e. `(TN, FP, FN, TP)`. -/
def get_quality_factors (y_true y_pred : List ℤ) :
    Except PyError (ℕ × ℕ × ℕ × ℕ) :=
  match get_confusion_matrix y_true y_pred 2 with
  | .error e => .error e
  | .ok m => .ok (mget m 0 0, mget m 0 1, mget m 1 0, mget m 1 1)

/-- Python division on numbers: `a / b` raises `ZeroDivisionError` when
`b = 0` and produces the exact quotient otherwise. -/
def pyDiv (a b : ℚ) : Except PyError ℚ :=
  if b = 0 then .error .zeroDivisionError else .ok (a / b)

/-- `accuracy_score` from `lab4/classification.py`:
`(TP + TN) / (TP + FN + FP + TN)`. -/
def accuracy_score (y_true y_pred : List ℤ) : Except PyError ℚ :=
  match get_quality_factors y_true y_pred with
  | .error e => .error e
  | .ok (TN, FP, FN, TP) => pyDiv ((TP : ℚ) + TN) ((TP : ℚ) + FN + FP + TN)

/-- `precision_score` from `lab4/classification.py`: `TP / (TP + FP)`. -/
def precision_score (y_true y_pred : List ℤ) : Except PyError ℚ :=
  match get_quality_factors y_true y_pred with
  | .error e => .error e
  | .ok (_TN, FP, _FN, TP) => pyDiv (TP : ℚ) ((TP : ℚ) + FP)

/-- `recall_score` from `lab4/classification.py`: `TP / (TP + FN)`. -/
def recall_score (y_true y_pred : List ℤ) : Except PyError ℚ :=
  match get_quality_factors y_true y_pred with
  | .error e => .error e
  | .ok (_TN, _FP, FN, TP) => pyDiv (TP : ℚ) ((TP : ℚ) + FN)

/-- `f1_score` from `lab4/classification.py`: `2·TP / (2·TP + FP + FN)`. -/
def f1_score (y_true y_pred : List ℤ) : Except PyError ℚ :=
  match get_quality_factors y_true y_pred with
  | .error e => .error e
  | .ok (_TN, FP, FN, TP) => pyDiv (2 * (TP : ℚ)) (2 * (TP : ℚ) + FP + FN)

/-- Design matrix built by `np.vander(X, polynomial_degree + 1,
increasing=True)` in `least_squares_solution` (`lab3/lss.py`, line 82):
the `N × (d+1)` matrix with `M[i][k] = X[i]^k` in increasing power order. -/
def vanderM (n d : ℕ) (X : Fin n → ℚ) : Matrix (Fin n) (Fin (d + 1)) ℚ :=
  Matrix.of fun i k => X i ^ (k : ℕ)

/-- `least_squares_solution` from `lab3/lss.py`:
`theta = np.linalg.inv(X_poly.T @ X_poly) @ X_poly.T @ Y`.
`np.linalg.inv` raises `LinAlgError("Singular matrix")` on a singular
matrix, hence the determinant test; on a nonsingular matrix the inverse is
`det⁻¹ · adjugate`.  The trailing `reshape(-1, 1)` only changes the shape
`(d+1,)` into the column shape `(d+1, 1)`; the result is modelled as the
coefficient vector `Fin (d+1) → ℚ`. -/
def least_squares_solution (n d : ℕ) (X Y : Fin n → ℚ) :
    Except PyError (Fin (d + 1) → ℚ) :=
  if ((vanderM n d X)ᵀ * vanderM n d X).det = 0 then
    .error (.linAlgError "Singular matrix")
  else
    .ok ((((vanderM n d X)ᵀ * vanderM n d X).det⁻¹ •
      ((vanderM n d X)ᵀ * vanderM n d X).adjugate).mulVec ((vanderM n d X)ᵀ.mulVec Y))

/-- `generalised_linear_model` from `lab3/lss.py`:
`sum([coeff * X ** degree for degree, coeff in enumerate(T)])` — the sum
of the scaled power vectors, taken in the pointwise additive monoid of
vectors exactly as numpy sums arrays elementwise.  (`T` is enumerated in
order, so `dc.1` is the degree and `dc.2` the coefficient.) -/
def generalised_linear_model (n : ℕ) (X : Fin n → ℚ) (T : List ℚ) : Fin n → ℚ :=
  (T.enum.map (fun dc => fun i => dc.2 * X i ^ dc.1)).sum

/-- Decimal digit character (`digitChar d` renders `d % 10`). -/
def digitChar (d : ℕ) : Char := Char.ofNat (48 + d % 10)

/-- Decimal rendering helper, most significant digit first.  The first
argument is fuel (structural recursion); `natChars` supplies enough. -/
def natCharsAux : ℕ → ℕ → List Char
  | 0, _ => []
  | fuel + 1, n =>
    if n < 10 then [digitChar n] else natCharsAux fuel (n / 10) ++ [digitChar (n % 10)]

/-- Decimal rendering of a natural number, as Python prints it. -/
def natChars (n : ℕ) : List Char := natCharsAux (n + 1) n

/-- Round to the nearest integer, ties to even — the rounding Python's
fixed-point `format` applies. -/
def roundHalfEven (q : ℚ) : ℤ :=
  if Int.fract q < 1 / 2 then ⌊q⌋
  else if 1 / 2 < Int.fract q then ⌊q⌋ + 1
  else if ⌊q⌋ % 2 = 0 then ⌊q⌋ else ⌊q⌋ + 1

/-- Python's fixed-point formatting `format(v, '.{p}f')` of a rational:
round `|v| · 10^p` half to even; print a `'-'` sign for negative inputs,
then the integer digits, and for `p > 0` a decimal point followed by
exactly `p` fractional digits (zero-padded on the left). -/
def formatFixed (q : ℚ) (p : ℕ) : List Char :=
  if p = 0 then
    (if q < 0 then ['-'] else []) ++ natChars ((roundHalfEven (|q| * 10 ^ p)).toNat / 10 ^ p)
  else
    (if q < 0 then ['-'] else []) ++ natChars ((roundHalfEven (|q| * 10 ^ p)).toNat / 10 ^ p)
      ++ ('.' :: (List.replicate
            (p - (natChars ((roundHalfEven (|q| * 10 ^ p)).toNat % 10 ^ p)).length) '0'
          ++ natChars ((roundHalfEven (|q| * 10 ^ p)).toNat % 10 ^ p)))

/-- The trailing-zero stripping loop of `print_polynomial` (`lab3/lss.py`,
lines 57-58), acting on the reversed accumulated string:
`while polynomial.endswith('0') and polynomial[-2] != '.': polynomial =
polynomial[:-1]`.  Reading `polynomial[-2]` on a string of length 1 raises
`IndexError`. -/
def stripTrailing : List Char → Except PyError (List Char)
  | [] => .ok []
  | a :: tail =>
    if a = '0' then
      match tail with
      | [] => .error .indexError
      | b :: rest => if b = '.' then .ok (a :: b :: rest) else stripTrailing (b :: rest)
    else .ok (a :: tail)

/-- The loop of `print_polynomial` (`lab3/lss.py`, lines 54-61), carrying
the reversed accumulated string: append the formatted coefficient, run the
stripping loop on the whole accumulated string, append `"*x^{i}"`, and
append `" + "` unless `i == theta.size - 1`. -/
def printPolyAux (p total : ℕ) : ℕ → List ℚ → List Char → Except PyError (List Char)
  | _, [], acc => .ok acc
  | i, c :: rest, acc =>
    match stripTrailing ((formatFixed c p).reverse ++ acc) with
    | .error e => .error e
    | .ok acc1 =>
      printPolyAux p total (i + 1) rest
        ((if i ≠ total - 1 then (" + ".toList).reverse else [])
          ++ (("*x^".toList ++ natChars i).reverse ++ acc1))

/-- `print_polynomial` from `lab3/lss.py` (default precision 3 in the
source; the precision is an explicit argument here). -/
def print_polynomial (theta : List ℚ) (p : ℕ) : Except PyError String :=
  match printPolyAux p theta.length 0 theta [] with
  | .error e => .error e
  | .ok r => .ok (String.mk r.reverse)

/-- Specified effect of the stripping loop on one (reversed) rendered
coefficient: drop trailing `'0'` characters but stop as soon as the
character before them is the decimal point, so at least one fractional
digit remains.  Total function, written from the words of the spec. -/
def stripSpec : List Char → List Char
  | [] => []
  | a :: tail =>
    if a = '0' then
      match tail with
      | [] => a :: tail
      | b :: rest => if b = '.' then a :: b :: rest else stripSpec (b :: rest)
    else a :: tail

/-- Specified rendering of one term `ci*x^i`: the coefficient formatted to
`p` fractional digits with trailing zeros stripped (keeping at least one
digit after the decimal point), followed by `*x^i`. -/
def specTerm (p i : ℕ) (c : ℚ) : List Char :=
  (stripSpec (formatFixed c p).reverse).reverse ++ "*x^".toList ++ natChars i

/-- Specified joined output starting at term index `i`: terms separated by
`" + "`, no term omitted. -/
def specJoin (p : ℕ) : ℕ → List ℚ → List Char
  | _, [] => []
  | i, [c] => specTerm p i c
  | i, c :: rest => specTerm p i c ++ " + ".toList ++ specJoin p (i + 1) rest

/-- C8: on `y_true = [0,1,1,0]`, `y_pred = [0,1,0,0]` with two classes the
confusion matrix is `[[2,0],[1,1]]` (so `TN = 2, FP = 0, FN = 1, TP = 1`),
accuracy is `3/4`, precision is `1`, recall is `1/2` and the F1 score is
`2·1·(1/2)/(1 + 1/2) = 2/3`. -/
theorem c8_binary_metrics_example :
    get_confusion_matrix [0, 1, 1, 0] [0, 1, 0, 0] 2 = .ok [[2, 0], [1, 1]]
    ∧ accuracy_score [0, 1, 1, 0] [0, 1, 0, 0] = .ok (3 / 4)
    ∧ precision_score [0, 1, 1, 0] [0, 1, 0, 0] = .ok 1
    ∧ recall_score [0, 1, 1, 0] [0, 1, 0, 0] = .ok (1 / 2)
    ∧ f1_score [0, 1, 1, 0] [0, 1, 0, 0] = .ok (2 / 3) := by
  have hq : get_quality_factors [0, 1, 1, 0] [0, 1, 0, 0] = .ok (2, 0, 1, 1) := by
    decide
  refine ⟨by decide, ?_, ?_, ?_, ?_⟩ <;>
    simp only [accuracy_score, precision_score, recall_score, f1_score, hq, pyDiv] <;>
    norm_num

/-- C7: given the quality factors `(TN, FP, FN, TP)` of the two label
lists, each derived metric raises `ZeroDivisionError` exactly when its own
denominator is zero, and returns the corresponding exact ratio otherwise —
a single uniform policy across precision, recall and F1. -/
theorem c7_zero_denominator_policy (y_true y_pred : List ℤ)
    (TN FP FN TP : ℕ)
    (h : get_quality_factors y_true y_pred = .ok (TN, FP, FN, TP)) :
    (precision_score y_true y_pred = .error .zeroDivisionError ↔ (TP : ℚ) + FP = 0)
    ∧ ((TP : ℚ) + FP ≠ 0 →
        precision_score y_true y_pred = .ok ((TP : ℚ) / ((TP : ℚ) + FP)))
    ∧ (recall_score y_true y_pred = .error .zeroDivisionError ↔ (TP : ℚ) + FN = 0)
    ∧ ((TP : ℚ) + FN ≠ 0 →
        recall_score y_true y_pred = .ok ((TP : ℚ) / ((TP : ℚ) + FN)))
    ∧ (f1_score y_true y_pred = .error .zeroDivisionError ↔ 2 * (TP : ℚ) + FP + FN = 0)
    ∧ (2 * (TP : ℚ) + FP + FN ≠ 0 →
        f1_score y_true y_pred = .ok (2 * (TP : ℚ) / (2 * (TP : ℚ) + FP + FN))) := by
  simp only [precision_score, recall_score, f1_score, h]
  refine ⟨?_, ?_, ?_, ?_, ?_, ?_⟩
  · by_cases hd : (TP : ℚ) + FP = 0 <;> simp [pyDiv, hd]
  · intro hd; simp [pyDiv, hd]
  · by_cases hd : (TP : ℚ) + FN = 0 <;> simp [pyDiv, hd]
  · intro hd; simp [pyDiv, hd]
  · by_cases hd : 2 * (TP : ℚ) + FP + FN = 0 <;> simp [pyDiv, hd]
  · intro hd; simp [pyDiv, hd]

/-- Witness for C7 at `y_true = [1]`, `y_pred = [0]` (so `TP = 0`, `FP = 0`,
`FN = 1`): precision has a zero denominator. -/
theorem c7_zero_denominator_policy_witness :
    get_quality_factors [1] [0] = .ok (0, 0, 1, 0)
    ∧ ((precision_score [1] [0] = .error .zeroDivisionError ↔ ((0 : ℕ) : ℚ) + (0 : ℕ) = 0)
      ∧ (((0 : ℕ) : ℚ) + (0 : ℕ) ≠ 0 →
          precision_score [1] [0] = .ok (((0 : ℕ) : ℚ) / (((0 : ℕ) : ℚ) + (0 : ℕ))))
      ∧ (recall_score [1] [0] = .error .zeroDivisionError ↔ ((0 : ℕ) : ℚ) + (1 : ℕ) = 0)
      ∧ (((0 : ℕ) : ℚ) + (1 : ℕ) ≠ 0 →
          recall_score [1] [0] = .ok (((0 : ℕ) : ℚ) / (((0 : ℕ) : ℚ) + (1 : ℕ))))
      ∧ (f1_score [1] [0] = .error .zeroDivisionError ↔ 2 * ((0 : ℕ) : ℚ) + (0 : ℕ) + (1 : ℕ) = 0)
      ∧ (2 * ((0 : ℕ) : ℚ) + (0 : ℕ) + (1 : ℕ) ≠ 0 →
          f1_score [1] [0] = .ok (2 * ((0 : ℕ) : ℚ) / (2 * ((0 : ℕ) : ℚ) + (0 : ℕ) + (1 : ℕ))))) :=
  ⟨by decide, c7_zero_denominator_policy [1] [0] 0 0 1 0 (by decide)⟩

/-- C5, counterexample: the label `-1` lies outside `[0, num_classes)`, yet
`get_confusion_matrix [-1] [0] 2` does not fail — Python's negative list
indexing silently counts the sample into row `2 + (-1) = 1`. -/
theorem c5_counterexample_negative_label :
    get_confusion_matrix [-1] [0] 2 = .ok [[0, 0], [1, 0]]
    ∧ (get_confusion_matrix [-1] [0] 2).isOk = true := by
  exact ⟨by decide, by decide⟩

lemma getD_set_self {α : Type} (l : List α) (i : ℕ) (x d : α)
    (h : i < l.length) : (l.set i x).getD i d = x := by
  simp [List.getD_eq_getElem?_getD, List.getElem?_set_self h]

lemma getD_set_ne {α : Type} (l : List α) (i j : ℕ) (x d : α)
    (h : i ≠ j) : (l.set i x).getD j d = l.getD j d := by
  simp [List.getD_eq_getElem?_getD, List.getElem?_set_ne h]

lemma getD_mem_of_lt {α : Type} (l : List α) (i : ℕ) (d : α)
    (h : i < l.length) : l.getD i d ∈ l := by
  rw [List.getD_eq_getElem?_getD, List.getElem?_eq_getElem h]
  exact List.getElem_mem h

/-- Effect of one in-range `matrix[a][p] += 1` update on a cell read. -/
lemma mget_update (m : List (List ℕ)) (ia ip a b : ℕ)
    (hia : ia < m.length) (hip : ip < (m.getD ia []).length) :
    mget (m.set ia ((m.getD ia []).set ip (mget m ia ip + 1))) a b
      = mget m a b + (if a = ia ∧ b = ip then 1 else 0) := by
  by_cases ha : a = ia
  · subst ha
    unfold mget
    rw [getD_set_self _ _ _ _ hia]
    by_cases hb : b = ip
    · subst hb
      rw [getD_set_self _ _ _ _ hip]
      simp [mget]
    · rw [getD_set_ne _ _ _ _ _ (fun h => hb h.symm)]
      simp [hb, mget]
  · unfold mget
    rw [getD_set_ne _ _ _ _ _ (fun h => ha h.symm)]
    simp [ha]

/-- When `0 ≤ i < n`, Python indexing is plain indexing. -/
lemma pyIdx_of_nonneg_lt (n : ℕ) (i : ℤ) (h0 : 0 ≤ i) (hn : i < (n : ℤ)) :
    pyIdx n i = some i.toNat := by
  simp [pyIdx, h0, hn]

/-- `cmStep` on an in-range pair performs the increment. -/
lemma cmStep_in_range (nc : ℕ) (m : List (List ℕ)) (x y : ℤ)
    (hx0 : 0 ≤ x) (hxn : x < (nc : ℤ)) (hy0 : 0 ≤ y) (hyn : y < (nc : ℤ)) :
    cmStep nc m (x, y) =
      .ok (m.set x.toNat ((m.getD x.toNat []).set y.toNat (mget m x.toNat y.toNat + 1))) := by
  have hguard : ¬((nc : ℤ) ≤ x ∨ (nc : ℤ) ≤ y) := by omega
  simp only [cmStep, hguard, if_false,
    pyIdx_of_nonneg_lt nc x hx0 hxn, pyIdx_of_nonneg_lt nc y hy0 hyn]

/-- Invariant of the counting loop: starting from an `nc × nc` matrix and
feeding only in-range pairs, the loop succeeds, preserves the shape, and
adds to each cell `[a][b]` the number of occurrences of the pair `(a, b)`. -/
lemma cmLoop_ok_count (nc : ℕ) (L : List (ℤ × ℤ)) :
    ∀ m : List (List ℕ), m.length = nc → (∀ r ∈ m, r.length = nc) →
      (∀ q ∈ L, 0 ≤ q.1 ∧ q.1 < (nc : ℤ) ∧ 0 ≤ q.2 ∧ q.2 < (nc : ℤ)) →
      ∃ M, cmLoop nc L m = .ok M ∧ M.length = nc ∧ (∀ r ∈ M, r.length = nc) ∧
        ∀ a b : ℕ, a < nc → b < nc →
          mget M a b = mget m a b + L.count ((a : ℤ), (b : ℤ)) := by
  induction L with
  | nil =>
    intro m hm hr _
    exact ⟨m, rfl, hm, hr, by simp⟩
  | cons q L ih =>
    obtain ⟨x, y⟩ := q
    intro m hm hr hq
    obtain ⟨hx0, hxn, hy0, hyn⟩ := hq (x, y) (List.mem_cons_self _ _)
    have hxlt : x.toNat < m.length := by rw [hm]; omega
    have hrow : (m.getD x.toNat []).length = nc :=
      hr _ (getD_mem_of_lt m x.toNat [] hxlt)
    have hylt : y.toNat < (m.getD x.toNat []).length := by rw [hrow]; omega
    set m2 := m.set x.toNat ((m.getD x.toNat []).set y.toNat (mget m x.toNat y.toNat + 1)) with hm2
    have hm2len : m2.length = nc := by rw [hm2, List.length_set, hm]
    have hm2rows : ∀ r ∈ m2, r.length = nc := by
      intro r hrm
      rcases List.mem_or_eq_of_mem_set hrm with h | h
      · exact hr r h
      · rw [h, List.length_set]; exact hrow
    obtain ⟨M, hM, hMlen, hMrows, hcount⟩ :=
      ih m2 hm2len hm2rows (fun q hq2 => hq q (List.mem_cons_of_mem _ hq2))
    refine ⟨M, ?_, hMlen, hMrows, ?_⟩
    · rw [cmLoop, cmStep_in_range nc m x y hx0 hxn hy0 hyn]
      exact hM
    · intro a b ha hb
      rw [hcount a b ha hb, hm2,
        mget_update m x.toNat y.toNat a b hxlt hylt, List.count_cons]
      have hpair : ((x, y) == ((a : ℤ), (b : ℤ))) = (a = x.toNat ∧ b = y.toNat) := by
        simp only [beq_iff_eq, Prod.mk.injEq, eq_iff_iff]
        omega
      by_cases hab : a = x.toNat ∧ b = y.toNat
      · rw [if_pos hab, if_pos (by rw [hpair]; exact hab)]; ring
      · rw [if_neg hab, if_neg (by rw [hpair]; exact hab)]; ring

/-- If every pair component is nonnegative but some pair has a component
`≥ num_classes`, the loop raises the invalid-class `ValueError`. -/
lemma cmLoop_invalid_class (nc : ℕ) (L : List (ℤ × ℤ)) :
    ∀ m : List (List ℕ), (∀ q ∈ L, 0 ≤ q.1 ∧ 0 ≤ q.2) →
      (∃ q ∈ L, (nc : ℤ) ≤ q.1 ∨ (nc : ℤ) ≤ q.2) →
      cmLoop nc L m = .error (.valueError "Invalid prediction classes!") := by
  induction L with
  | nil => intro m _ hbad; obtain ⟨q, hq, _⟩ := hbad; exact absurd hq (List.not_mem_nil q)
  | cons q L ih =>
    obtain ⟨x, y⟩ := q
    intro m h0 hbad
    obtain ⟨hx0, hy0⟩ := h0 (x, y) (List.mem_cons_self _ _)
    by_cases hguard : (nc : ℤ) ≤ x ∨ (nc : ℤ) ≤ y
    · rw [cmLoop]
      have : cmStep nc m (x, y) = .error (.valueError "Invalid prediction classes!") := by
        simp only [cmStep, hguard, if_true]
      rw [this]
    · have hxn : x < (nc : ℤ) := by omega
      have hyn : y < (nc : ℤ) := by omega
      rw [cmLoop, cmStep_in_range nc m x y hx0 hxn hy0 hyn]
      apply ih
      · exact fun q hq2 => h0 q (List.mem_cons_of_mem _ hq2)
      · obtain ⟨q, hq, hqbad⟩ := hbad
        rcases List.mem_cons.mp hq with h | h
        · exact absurd (h ▸ hqbad) (by push_neg at hguard; simp; omega)
        · exact ⟨q, h, hqbad⟩

/-- C5 as amended: `get_confusion_matrix` fails with the shape-mismatch
`ValueError` when the input lengths differ (before any computation); when
the lengths match and all labels are nonnegative it fails with the
invalid-class `ValueError` exactly if some label is `≥ num_classes`; and
when every label lies in `[0, num_classes)` it returns the
`num_classes × num_classes` matrix whose cell `[a][p]` counts the samples
with true label `a` and predicted label `p`.  (The original claim also
promised an invalid-class failure for negative labels; the code does not
check the lower bound — see `c5_counterexample_negative_label`.) -/
theorem c5_confusion_matrix_checks :
    (∀ (y_true y_pred : List ℤ) (nc : ℕ), y_true.length ≠ y_pred.length →
      get_confusion_matrix y_true y_pred nc = .error (.valueError "Invalid input shapes!"))
    ∧ (∀ (y_true y_pred : List ℤ) (nc : ℕ), y_true.length = y_pred.length →
        (∀ l ∈ y_true, 0 ≤ l) → (∀ l ∈ y_pred, 0 ≤ l) →
        ((∃ l ∈ y_true, (nc : ℤ) ≤ l) ∨ (∃ l ∈ y_pred, (nc : ℤ) ≤ l)) →
        get_confusion_matrix y_true y_pred nc = .error (.valueError "Invalid prediction classes!"))
    ∧ (∀ (y_true y_pred : List ℤ) (nc : ℕ), y_true.length = y_pred.length →
        (∀ l ∈ y_true, 0 ≤ l ∧ l < (nc : ℤ)) → (∀ l ∈ y_pred, 0 ≤ l ∧ l < (nc : ℤ)) →
        ∃ M, get_confusion_matrix y_true y_pred nc = .ok M ∧
          M.length = nc ∧ (∀ r ∈ M, r.length = nc) ∧
          ∀ a b : ℕ, a < nc → b < nc →
            mget M a b = (y_true.zip y_pred).count ((a : ℤ), (b : ℤ))) := by
  refine ⟨?_, ?_, ?_⟩
  · intro yt yp nc hne
    simp [get_confusion_matrix, hne]
  · intro yt yp nc hlen h0t h0p hbad
    rw [get_confusion_matrix, if_neg (by simp [hlen])]
    apply cmLoop_invalid_class
    · intro q hq
      obtain ⟨h1, h2⟩ := List.of_mem_zip hq
      exact ⟨h0t _ h1, h0p _ h2⟩
    · obtain hl | hl := hbad
      · obtain ⟨l, hl, hnc⟩ := hl
        obtain ⟨i, hi, hil⟩ := List.mem_iff_getElem.mp hl
        have hiz : i < (yt.zip yp).length := by
          rw [List.length_zip, ← hlen]; omega
        exact ⟨(yt.zip yp)[i], List.getElem_mem hiz,
          by rw [List.getElem_zip]; left; rw [hil]; exact hnc⟩
      · obtain ⟨l, hl, hnc⟩ := hl
        obtain ⟨i, hi, hil⟩ := List.mem_iff_getElem.mp hl
        have hiz : i < (yt.zip yp).length := by
          rw [List.length_zip, hlen]; omega
        exact ⟨(yt.zip yp)[i], List.getElem_mem hiz,
          by rw [List.getElem_zip]; right; rw [hil]; exact hnc⟩
  · intro yt yp nc hlen hrt hrp
    rw [get_confusion_matrix, if_neg (by simp [hlen])]
    obtain ⟨M, hM, hMlen, hMrows, hcount⟩ :=
      cmLoop_ok_count nc (yt.zip yp) (List.replicate nc (List.replicate nc 0))
        (by simp) (by intro r hr; rw [List.eq_of_mem_replicate hr]; simp)
        (by
          intro q hq
          obtain ⟨h1, h2⟩ := List.of_mem_zip hq
          exact ⟨(hrt _ h1).1, (hrt _ h1).2, (hrp _ h2).1, (hrp _ h2).2⟩)
    refine ⟨M, hM, hMlen, hMrows, ?_⟩
    intro a b ha hb
    rw [hcount a b ha hb]
    simp [mget, List.getD_eq_getElem?_getD, List.getElem?_replicate, ha, hb]

/-- Witness for C5 (amended) on the in-range inputs `y_true = [0, 1]`,
`y_pred = [1, 0]` with two classes. -/
theorem c5_confusion_matrix_checks_witness :
    ([(0 : ℤ), 1].length = [(1 : ℤ), 0].length)
    ∧ (∀ l ∈ [(0 : ℤ), 1], 0 ≤ l ∧ l < (2 : ℕ))
    ∧ ∃ M, get_confusion_matrix [0, 1] [1, 0] 2 = .ok M ∧
        M.length = 2 ∧ (∀ r ∈ M, r.length = 2) ∧
        ∀ a b : ℕ, a < 2 → b < 2 →
          mget M a b = ([(0 : ℤ), 1].zip [(1 : ℤ), 0]).count ((a : ℤ), (b : ℤ)) :=
  ⟨rfl, by decide,
    c5_confusion_matrix_checks.2.2 [0, 1] [1, 0] 2 rfl (by decide) (by decide)⟩

lemma inv_eq_det_inv_smul_adjugate {k : ℕ} (A : Matrix (Fin k) (Fin k) ℚ) :
    A⁻¹ = A.det⁻¹ • A.adjugate := by
  rw [Matrix.inv_def, Ring.inverse_eq_inv]

/-- On a nonsingular normal-equations matrix the solver succeeds and its
`det⁻¹ • adjugate` inverse agrees with the abstract matrix inverse. -/
lemma lss_eq_ok (n d : ℕ) (X Y : Fin n → ℚ)
    (h : ((vanderM n d X)ᵀ * vanderM n d X).det ≠ 0) :
    least_squares_solution n d X Y =
      .ok ((((vanderM n d X)ᵀ * vanderM n d X)⁻¹).mulVec ((vanderM n d X)ᵀ.mulVec Y)) := by
  rw [least_squares_solution, if_neg h, inv_eq_det_inv_smul_adjugate]

/-- Full column rank of the design matrix makes `MᵀM` nonsingular (over an
ordered field a sum of squares vanishes only on the zero vector). -/
lemma det_gram_ne_zero_of_inj (n d : ℕ) (X : Fin n → ℚ)
    (h : Function.Injective (vanderM n d X).mulVec) :
    ((vanderM n d X)ᵀ * vanderM n d X).det ≠ 0 := by
  intro hdet
  obtain ⟨v, hv, hGv⟩ := Matrix.exists_mulVec_eq_zero_iff.mpr hdet
  have key : Matrix.dotProduct v (((vanderM n d X)ᵀ * vanderM n d X).mulVec v)
      = Matrix.dotProduct ((vanderM n d X).mulVec v) ((vanderM n d X).mulVec v) := by
    rw [← Matrix.mulVec_mulVec, Matrix.dotProduct_mulVec, Matrix.vecMul_transpose]
  have hMv : Matrix.dotProduct ((vanderM n d X).mulVec v) ((vanderM n d X).mulVec v) = 0 := by
    rw [← key, hGv, Matrix.dotProduct_zero]
  have hzero : (vanderM n d X).mulVec v = 0 := Matrix.dotProduct_self_eq_zero.mp hMv
  exact hv (h (by rw [hzero, Matrix.mulVec_zero]))

/-- Conversely, a nonsingular `MᵀM` forces the design matrix to have full
column rank. -/
lemma inj_of_det_gram_ne_zero (n d : ℕ) (X : Fin n → ℚ)
    (h : ((vanderM n d X)ᵀ * vanderM n d X).det ≠ 0) :
    Function.Injective (vanderM n d X).mulVec := by
  intro v w hvw
  have hG : ((vanderM n d X)ᵀ * vanderM n d X).mulVec v
      = ((vanderM n d X)ᵀ * vanderM n d X).mulVec w := by
    rw [← Matrix.mulVec_mulVec, ← Matrix.mulVec_mulVec, hvw]
  have hu : IsUnit ((vanderM n d X)ᵀ * vanderM n d X).det := isUnit_iff_ne_zero.mpr h
  have := congrArg (fun u => ((((vanderM n d X)ᵀ * vanderM n d X)⁻¹)).mulVec u) hG
  simpa [Matrix.mulVec_mulVec, Matrix.nonsing_inv_mul _ hu, Matrix.one_mulVec] using this

/-- C1: with `N ≥ d + 1` and a design matrix of full column rank (its
column map is injective), `least_squares_solution` succeeds and returns
exactly `θ = (MᵀM)⁻¹ MᵀY`, a vector indexed by the `d + 1` increasing
powers (`vanderM` has `M[i][k] = X[i]^k`, so `θ k` is the coefficient
of `x^k`). -/
theorem c1_least_squares_formula (n d : ℕ) (X Y : Fin n → ℚ)
    (_h1 : d + 1 ≤ n) (h2 : Function.Injective (vanderM n d X).mulVec) :
    least_squares_solution n d X Y =
      .ok ((((vanderM n d X)ᵀ * vanderM n d X)⁻¹).mulVec ((vanderM n d X)ᵀ.mulVec Y)) :=
  lss_eq_ok n d X Y (det_gram_ne_zero_of_inj n d X h2)

/-- The Gram matrix of the design matrix on `X = [0, 1]`, degree 1, has
determinant 1. -/
lemma vander21_gram_det :
    ((vanderM 2 1 ![0, 1])ᵀ * vanderM 2 1 ![0, 1]).det = 1 := by
  rw [Matrix.det_fin_two]
  simp only [vanderM, Matrix.mul_apply, Matrix.transpose_apply, Matrix.of_apply,
    Fin.sum_univ_two, Matrix.cons_val_zero, Matrix.cons_val_one, Matrix.head_cons,
    Fin.val_zero, Fin.val_one]
  norm_num

/-- Witness for C1 at `X = [0, 1]`, `Y = [0, 1]`, degree 1. -/
theorem c1_least_squares_formula_witness :
    (1 + 1 ≤ 2)
    ∧ least_squares_solution 2 1 ![0, 1] ![0, 1] =
        .ok ((((vanderM 2 1 ![0, 1])ᵀ * vanderM 2 1 ![0, 1])⁻¹).mulVec
          ((vanderM 2 1 ![0, 1])ᵀ.mulVec ![0, 1])) :=
  ⟨by norm_num,
    c1_least_squares_formula 2 1 ![0, 1] ![0, 1] (by norm_num)
      (inj_of_det_gram_ne_zero 2 1 ![0, 1] (by rw [vander21_gram_det]; norm_num))⟩

/-- C2: whenever the normal-equations matrix `MᵀM` is singular the solver
fails with the explicit `LinAlgError("Singular matrix")` (first part), and
in particular `MᵀM` is always singular in the underdetermined case
`degree ≥ N` (second part). -/
theorem c2_singular_error :
    (∀ (n d : ℕ) (X Y : Fin n → ℚ), ((vanderM n d X)ᵀ * vanderM n d X).det = 0 →
        least_squares_solution n d X Y = .error (.linAlgError "Singular matrix"))
    ∧ (∀ (n d : ℕ) (X : Fin n → ℚ), n ≤ d →
        ((vanderM n d X)ᵀ * vanderM n d X).det = 0) := by
  constructor
  · intro n d X Y h
    rw [least_squares_solution, if_pos h]
  · intro n d X h
    rw [← Matrix.exists_mulVec_eq_zero_iff]
    have hnotinj : ¬ Function.Injective (vanderM n d X).mulVecLin := by
      intro hinj
      have hle := LinearMap.finrank_le_finrank_of_injective hinj
      rw [Module.finrank_pi, Module.finrank_pi, Fintype.card_fin, Fintype.card_fin] at hle
      omega
    obtain ⟨v, w, hvw, hne⟩ := Function.not_injective_iff.mp hnotinj
    refine ⟨v - w, sub_ne_zero.mpr hne, ?_⟩
    have hMvw : (vanderM n d X).mulVec (v - w) = 0 := by
      have h2 : (vanderM n d X).mulVecLin (v - w) = 0 := by
        rw [map_sub, hvw, sub_self]
      simpa [Matrix.mulVecLin_apply] using h2
    rw [← Matrix.mulVec_mulVec, hMvw, Matrix.mulVec_zero]

/-- Witness for C2 at `N = 1`, degree 1 (underdetermined). -/
theorem c2_singular_error_witness :
    ((1 : ℕ) ≤ 1)
    ∧ least_squares_solution 1 1 ![1] ![1] = .error (.linAlgError "Singular matrix") :=
  ⟨le_refl 1, c2_singular_error.1 1 1 ![1] ![1] (c2_singular_error.2 1 1 ![1] (le_refl 1))⟩

/-- Pointwise evaluation of a sum of vectors. -/
lemma list_sum_apply (n : ℕ) (l : List (Fin n → ℚ)) (i : Fin n) :
    l.sum i = (l.map (fun f => f i)).sum := by
  induction l with
  | nil => rfl
  | cons f l ih => simp [List.sum_cons, ih]

/-- Summing over an enumerated list is summing over the index range. -/
lemma enumFrom_map_sum (g : ℕ → ℚ → ℚ) (T : List ℚ) :
    ∀ s : ℕ, ((List.enumFrom s T).map (fun dc => g dc.1 dc.2)).sum
      = ∑ k ∈ Finset.range T.length, g (s + k) (T.getD k 0) := by
  induction T with
  | nil => intro s; simp
  | cons c T ih =>
    intro s
    rw [List.enumFrom_cons, List.map_cons, List.sum_cons, ih (s + 1),
      List.length_cons, Finset.sum_range_succ']
    simp only [List.getD_cons_succ, List.getD_cons_zero, Nat.add_zero]
    rw [add_comm]
    congr 1
    apply Finset.sum_congr rfl
    intro k _
    congr 1
    omega

/-- The evaluator computes `output[i] = Σ_{k<|T|} T[k] · X[i]^k`. -/
lemma glm_eq_range_sum (n : ℕ) (X : Fin n → ℚ) (T : List ℚ) (i : Fin n) :
    generalised_linear_model n X T i
      = ∑ k ∈ Finset.range T.length, T.getD k 0 * X i ^ k := by
  rw [generalised_linear_model, list_sum_apply, List.map_map]
  have h := enumFrom_map_sum (fun d c => c * X i ^ d) T 0
  simpa [List.enum, Function.comp] using h

/-- C4: for every evaluation-point vector of length `M` (including `M = 0`)
and every coefficient list (including the constant case of length 1), the
evaluator returns the length-`M` vector whose `i`-th entry is
`Σ_{k=0}^{d} θ[k] · X[i]^k`; it is a pure function of its arguments. -/
theorem c4_evaluator_pointwise (n : ℕ) (X : Fin n → ℚ) (T : List ℚ) (i : Fin n) :
    generalised_linear_model n X T i
      = ∑ k ∈ Finset.range T.length, T.getD k 0 * X i ^ k :=
  glm_eq_range_sum n X T i

/-- C9: the evaluator is linear in the coefficient vector: for equal-length
`θ₁, θ₂` and scalars `a, b`, evaluating `a·θ₁ + b·θ₂` equals
`a · eval θ₁ + b · eval θ₂` pointwise. -/
theorem c9_evaluator_linear_in_theta (n : ℕ) (X : Fin n → ℚ) (a b : ℚ)
    (t1 t2 : List ℚ) (h : t1.length = t2.length) (i : Fin n) :
    generalised_linear_model n X (List.zipWith (fun u v => a * u + b * v) t1 t2) i
      = a * generalised_linear_model n X t1 i + b * generalised_linear_model n X t2 i := by
  rw [glm_eq_range_sum, glm_eq_range_sum, glm_eq_range_sum]
  have hlen : (List.zipWith (fun u v => a * u + b * v) t1 t2).length = t1.length := by
    rw [List.length_zipWith, h, min_self]
  rw [hlen, ← h, Finset.mul_sum, Finset.mul_sum, ← Finset.sum_add_distrib]
  apply Finset.sum_congr rfl
  intro k hk
  have hk1 : k < t1.length := Finset.mem_range.mp hk
  have hk2 : k < t2.length := by omega
  have hkz : k < (List.zipWith (fun u v => a * u + b * v) t1 t2).length := by omega
  rw [List.getD_eq_getElem _ _ hkz, List.getD_eq_getElem _ _ hk1,
    List.getD_eq_getElem _ _ hk2, List.getElem_zipWith]
  ring

/-- Witness for C9 at `X = [2]`, `θ₁ = [1, 2]`, `θ₂ = [3, 4]`, `a = 5`,
`b = 7`. -/
theorem c9_evaluator_linear_in_theta_witness :
    ([(1 : ℚ), 2].length = [(3 : ℚ), 4].length)
    ∧ generalised_linear_model 1 ![2] (List.zipWith (fun u v => 5 * u + 7 * v) [1, 2] [3, 4]) 0
      = 5 * generalised_linear_model 1 ![2] [1, 2] 0
        + 7 * generalised_linear_model 1 ![2] [3, 4] 0 :=
  ⟨rfl, c9_evaluator_linear_in_theta 1 ![2] 5 7 [1, 2] [3, 4] rfl 0⟩

/-- The Gram matrix of the design matrix on `X = [1, 2, 3, 4]`, degree 2. -/
lemma vander42_gram :
    (vanderM 4 2 ![1, 2, 3, 4])ᵀ * vanderM 4 2 ![1, 2, 3, 4] =
      Matrix.of ![![4, 10, 30], ![10, 30, 100], ![30, 100, 354]] := by
  ext i j
  fin_cases i <;> fin_cases j <;>
    simp [vanderM, Matrix.mul_apply, Fin.sum_univ_four] <;> norm_num

lemma vander42_gram_det :
    ((vanderM 4 2 ![1, 2, 3, 4])ᵀ * vanderM 4 2 ![1, 2, 3, 4]).det = 80 := by
  rw [vander42_gram, Matrix.det_fin_three]
  simp
  norm_num

/-- The target `Y = [1, 4, 9, 16]` is exactly the quadratic `x²` sampled at
`X = [1, 2, 3, 4]`. -/
lemma vander42_target :
    (vanderM 4 2 ![1, 2, 3, 4]).mulVec ![0, 0, 1] = ![(1 : ℚ), 4, 9, 16] := by
  funext i
  fin_cases i <;>
    simp [vanderM, Matrix.mulVec, Matrix.dotProduct, Fin.sum_univ_three] <;> norm_num

/-- C3: fitting degree 2 to `X = [1,2,3,4]`, `Y = [1,4,9,16]` yields
`θ = [0, 0, 1]` (the exact quadratic), and evaluating the fitted polynomial
at `X` reproduces `Y` exactly. -/
theorem c3_exact_quadratic_fit :
    least_squares_solution 4 2 ![1, 2, 3, 4] ![1, 4, 9, 16] = .ok ![0, 0, 1]
    ∧ generalised_linear_model 4 ![1, 2, 3, 4] [0, 0, 1] = ![(1 : ℚ), 4, 9, 16] := by
  constructor
  · have hdet : ((vanderM 4 2 ![1, 2, 3, 4])ᵀ * vanderM 4 2 ![1, 2, 3, 4]).det ≠ 0 := by
      rw [vander42_gram_det]; norm_num
    have hu : IsUnit ((vanderM 4 2 ![1, 2, 3, 4])ᵀ * vanderM 4 2 ![1, 2, 3, 4]).det :=
      isUnit_iff_ne_zero.mpr hdet
    rw [lss_eq_ok 4 2 _ _ hdet]
    congr 1
    rw [← vander42_target, Matrix.mulVec_mulVec, Matrix.mulVec_mulVec,
      Matrix.mul_assoc, Matrix.nonsing_inv_mul _ hu, Matrix.one_mulVec]
  · funext i
    rw [glm_eq_range_sum]
    fin_cases i <;>
      simp [Finset.sum_range_succ, List.getD_cons_succ, List.getD_cons_zero] <;> norm_num

lemma digitChar_ne_dot (d : ℕ) : digitChar d ≠ '.' := by
  have h : ∀ m, m < 10 → Char.ofNat (48 + m) ≠ '.' := by decide
  exact h (d % 10) (Nat.mod_lt _ (by norm_num))

lemma natCharsAux_no_dot : ∀ (fuel n : ℕ), ∀ c ∈ natCharsAux fuel n, c ≠ '.' := by
  intro fuel
  induction fuel with
  | zero => intro n c hc; exact absurd hc (List.not_mem_nil c)
  | succ fuel ih =>
    intro n c hc
    rw [natCharsAux] at hc
    by_cases h : n < 10
    · rw [if_pos h] at hc
      simp only [List.mem_singleton] at hc
      rw [hc]; exact digitChar_ne_dot n
    · rw [if_neg h] at hc
      rcases List.mem_append.mp hc with h2 | h2
      · exact ih (n / 10) c h2
      · simp only [List.mem_singleton] at h2
        rw [h2]; exact digitChar_ne_dot _

lemma natChars_no_dot (n : ℕ) : ∀ c ∈ natChars n, c ≠ '.' :=
  natCharsAux_no_dot (n + 1) n

lemma natChars_ne_nil (n : ℕ) : natChars n ≠ [] := by
  rw [natChars, natCharsAux]
  by_cases h : n < 10
  · rw [if_pos h]; exact List.cons_ne_nil _ _
  · rw [if_neg h]; simp

/-- Shape of a formatted coefficient at positive precision: some prefix,
then a decimal point, then a nonempty block of fractional characters none
of which is a decimal point. -/
lemma formatFixed_shape (q : ℚ) (p : ℕ) (hp : 1 ≤ p) :
    ∃ pre fr : List Char, formatFixed q p = pre ++ '.' :: fr
      ∧ fr ≠ [] ∧ ∀ c ∈ fr, c ≠ '.' := by
  refine ⟨(if q < 0 then ['-'] else [])
      ++ natChars ((roundHalfEven (|q| * 10 ^ p)).toNat / 10 ^ p),
    List.replicate
        (p - (natChars ((roundHalfEven (|q| * 10 ^ p)).toNat % 10 ^ p)).length) '0'
      ++ natChars ((roundHalfEven (|q| * 10 ^ p)).toNat % 10 ^ p), ?_, ?_, ?_⟩
  · rw [formatFixed, if_neg (by omega)]
  · simp [natChars_ne_nil]
  · intro c hc
    rcases List.mem_append.mp hc with h | h
    · rw [List.eq_of_mem_replicate h]; decide
    · exact natChars_no_dot _ c h

lemma stripTrailing_cons_ne (a : Char) (t : List Char) (ha : a ≠ '0') :
    stripTrailing (a :: t) = .ok (a :: t) := by
  rw [stripTrailing.eq_def]; simp [ha]

lemma stripSpec_cons_ne (a : Char) (t : List Char) (ha : a ≠ '0') :
    stripSpec (a :: t) = a :: t := by
  rw [stripSpec.eq_def]; simp [ha]

lemma stripTrailing_zero_cons (b : Char) (t : List Char) (hb : b ≠ '.') :
    stripTrailing ('0' :: b :: t) = stripTrailing (b :: t) := by
  rw [stripTrailing.eq_def]; simp [hb]

lemma stripSpec_zero_cons (b : Char) (t : List Char) (hb : b ≠ '.') :
    stripSpec ('0' :: b :: t) = stripSpec (b :: t) := by
  rw [stripSpec.eq_def]; simp [hb]

lemma stripTrailing_zero_dot (t : List Char) :
    stripTrailing ('0' :: '.' :: t) = .ok ('0' :: '.' :: t) := by
  rw [stripTrailing.eq_def]; simp

lemma stripSpec_zero_dot (t : List Char) :
    stripSpec ('0' :: '.' :: t) = '0' :: '.' :: t := by
  rw [stripSpec.eq_def]; simp

/-- The stripping loop confined to the fractional block: on
`u ++ '.' :: w` with `u` nonempty and dot-free it terminates normally,
agrees with `stripSpec`, and never reads past the decimal point. -/
lemma strip_frac : ∀ u : List Char, u ≠ [] → (∀ c ∈ u, c ≠ '.') → ∀ w,
    stripTrailing (u ++ '.' :: w) = .ok (stripSpec (u ++ '.' :: w))
    ∧ stripSpec (u ++ '.' :: w) = stripSpec (u ++ ['.']) ++ w := by
  intro u
  induction u with
  | nil => intro h; exact absurd rfl h
  | cons a u ih =>
    intro _ hdot w
    by_cases ha : a = '0'
    · subst ha
      cases u with
      | nil =>
        constructor
        · simp only [List.cons_append, List.nil_append]
          rw [stripTrailing_zero_dot, stripSpec_zero_dot]
        · simp only [List.cons_append, List.nil_append]
          rw [stripSpec_zero_dot, stripSpec_zero_dot]
          simp
      | cons b u2 =>
        have hb : b ≠ '.' := hdot b (by simp)
        have ihb := ih (List.cons_ne_nil b u2)
          (fun c hc => hdot c (List.mem_cons_of_mem _ hc)) w
        constructor
        · simp only [List.cons_append]
          rw [stripTrailing_zero_cons _ _ hb, stripSpec_zero_cons _ _ hb]
          simpa using ihb.1
        · simp only [List.cons_append]
          rw [stripSpec_zero_cons _ _ hb, stripSpec_zero_cons _ _ hb]
          simpa using ihb.2
    · constructor
      · simp only [List.cons_append]
        rw [stripTrailing_cons_ne _ _ ha, stripSpec_cons_ne _ _ ha]
      · simp only [List.cons_append]
        rw [stripSpec_cons_ne _ _ ha, stripSpec_cons_ne _ _ ha]
        simp

/-- Running the source's stripping loop right after appending a formatted
coefficient (precision ≥ 1) to the accumulator strips within that
coefficient only. -/
lemma stripTrailing_format (c : ℚ) (p : ℕ) (hp : 1 ≤ p) (acc : List Char) :
    stripTrailing ((formatFixed c p).reverse ++ acc)
      = .ok (stripSpec ((formatFixed c p).reverse) ++ acc) := by
  obtain ⟨pre, fr, hfmt, hfr, hdot⟩ := formatFixed_shape c p hp
  have hu_ne : fr.reverse ≠ [] := by simpa using hfr
  have hu_dot : ∀ ch ∈ fr.reverse, ch ≠ '.' :=
    fun ch hch => hdot ch (List.mem_reverse.mp hch)
  have hrev : (formatFixed c p).reverse = fr.reverse ++ '.' :: pre.reverse := by
    rw [hfmt]; simp
  have h1 := (strip_frac fr.reverse hu_ne hu_dot (pre.reverse ++ acc)).1
  have h2 := (strip_frac fr.reverse hu_ne hu_dot (pre.reverse ++ acc)).2
  have h3 := (strip_frac fr.reverse hu_ne hu_dot pre.reverse).2
  rw [hrev, List.append_assoc, List.cons_append, h1, h2, h3, List.append_assoc]

lemma printPolyAux_nil (p total i : ℕ) (acc : List Char) :
    printPolyAux p total i [] acc = .ok acc := rfl

lemma printPolyAux_cons (p total i : ℕ) (c : ℚ) (rest : List ℚ) (acc acc1 : List Char)
    (h : stripTrailing ((formatFixed c p).reverse ++ acc) = .ok acc1) :
    printPolyAux p total i (c :: rest) acc
      = printPolyAux p total (i + 1) rest
          ((if i ≠ total - 1 then (" + ".toList).reverse else [])
            ++ (("*x^".toList ++ natChars i).reverse ++ acc1)) := by
  rw [printPolyAux.eq_def]
  simp only [h]

/-- The accumulation loop produces exactly the specified join (reversed)
in front of the starting accumulator, for precision ≥ 1. -/
lemma printPolyAux_spec (p : ℕ) (hp : 1 ≤ p) (total : ℕ) :
    ∀ (cs : List ℚ) (i : ℕ) (acc : List Char), total = i + cs.length →
      printPolyAux p total i cs acc = .ok ((specJoin p i cs).reverse ++ acc) := by
  intro cs
  induction cs with
  | nil => intro i acc htot; rw [printPolyAux_nil]; simp [specJoin]
  | cons c rest ih =>
    intro i acc htot
    rw [printPolyAux_cons p total i c rest acc _ (stripTrailing_format c p hp acc)]
    cases rest with
    | nil =>
      have hcond : ¬ (i ≠ total - 1) := by
        simp only [List.length_cons, List.length_nil] at htot; omega
      rw [if_neg hcond, printPolyAux_nil]
      simp [specJoin, specTerm, List.reverse_append, List.append_assoc]
    | cons c2 rest2 =>
      have hcond : i ≠ total - 1 := by
        simp only [List.length_cons] at htot; omega
      rw [if_pos hcond, ih (i + 1) _ (by simp only [List.length_cons] at htot ⊢; omega)]
      simp [specJoin, specTerm, List.reverse_append, List.append_assoc]

lemma intercalate_cons_cons (sep x y : List Char) (l : List (List Char)) :
    List.intercalate sep (x :: y :: l) = x ++ sep ++ List.intercalate sep (y :: l) := by
  simp [List.intercalate, List.intersperse]

lemma specJoin_eq_intercalate (p : ℕ) : ∀ (cs : List ℚ) (i : ℕ),
    specJoin p i cs = List.intercalate " + ".toList
      ((List.enumFrom i cs).map (fun ic => specTerm p ic.1 ic.2)) := by
  intro cs
  induction cs with
  | nil => intro i; simp [specJoin, List.intercalate]
  | cons c rest ih =>
    intro i
    cases rest with
    | nil =>
      simp [specJoin, List.enumFrom_cons, List.intercalate]
    | cons c2 rest2 =>
      rw [specJoin, List.enumFrom_cons, List.map_cons, List.enumFrom_cons, List.map_cons,
        intercalate_cons_cons, ih (i + 1), List.enumFrom_cons, List.map_cons]
      simp

lemma roundHalfEven_intCast (z : ℤ) : roundHalfEven ((z : ℚ)) = z := by
  rw [roundHalfEven, Int.fract_intCast, if_pos (by norm_num), Int.floor_intCast]

lemma formatFixed_one_two : formatFixed 1 2 = "1.00".toList := by
  have h : |(1 : ℚ)| * 10 ^ 2 = ((100 : ℤ) : ℚ) := by norm_num
  have hneg : ¬ ((1 : ℚ) < 0) := by norm_num
  rw [formatFixed, if_neg (by norm_num), h, roundHalfEven_intCast, if_neg hneg]
  decide

lemma formatFixed_zero_two : formatFixed 0 2 = "0.00".toList := by
  have h : |(0 : ℚ)| * 10 ^ 2 = ((0 : ℤ) : ℚ) := by norm_num
  have hneg : ¬ ((0 : ℚ) < 0) := by norm_num
  rw [formatFixed, if_neg (by norm_num), h, roundHalfEven_intCast, if_neg hneg]
  decide

lemma formatFixed_neg52 : formatFixed (-5 / 2 : ℚ) 2 = "-2.50".toList := by
  have h : |(-5 / 2 : ℚ)| * 10 ^ 2 = ((250 : ℤ) : ℚ) := by
    rw [abs_of_nonpos (by norm_num)]; norm_num
  have hneg : (-5 / 2 : ℚ) < 0 := by norm_num
  rw [formatFixed, if_neg (by norm_num), h, roundHalfEven_intCast, if_pos hneg]
  decide

lemma formatFixed_zero_zero : formatFixed 0 0 = ['0'] := by
  have h : |(0 : ℚ)| * 10 ^ 0 = ((0 : ℤ) : ℚ) := by norm_num
  have hneg : ¬ ((0 : ℚ) < 0) := by norm_num
  rw [formatFixed, if_pos rfl, h, roundHalfEven_intCast, if_neg hneg]
  decide

/-- C6 as amended: for every coefficient list and every precision `p ≥ 1`,
`print_polynomial` returns the terms `ci*x^i` joined by `" + "`, none
omitted, each coefficient formatted to `p` fractional digits with trailing
zeros stripped but at least one fractional digit kept; in particular
`θ = [1, 0, -5/2]` at precision 2 renders exactly
`"1.0*x^0 + 0.0*x^1 + -2.5*x^2"`.  (The original claim ranged over every
precision including 0, where the code crashes instead — see
`c6_counterexample_precision_zero` and C10.) -/
theorem c6_polynomial_formatting :
    (∀ (theta : List ℚ) (p : ℕ), 1 ≤ p →
      print_polynomial theta p =
        .ok (String.mk (List.intercalate " + ".toList
          (theta.enum.map (fun ic => specTerm p ic.1 ic.2)))))
    ∧ print_polynomial [1, 0, -5 / 2] 2 = .ok "1.0*x^0 + 0.0*x^1 + -2.5*x^2" := by
  have hmain : ∀ (theta : List ℚ) (p : ℕ), 1 ≤ p →
      print_polynomial theta p =
        .ok (String.mk (List.intercalate " + ".toList
          (theta.enum.map (fun ic => specTerm p ic.1 ic.2)))) := by
    intro theta p hp
    rw [print_polynomial, printPolyAux_spec p hp theta.length theta 0 [] (by simp)]
    rw [specJoin_eq_intercalate]
    simp [List.enum]
  refine ⟨hmain, ?_⟩
  rw [hmain [1, 0, -5 / 2] 2 (by norm_num)]
  have h1 : specTerm 2 0 (1 : ℚ) = "1.0*x^0".toList := by
    simp only [specTerm, formatFixed_one_two]; decide
  have h2 : specTerm 2 1 (0 : ℚ) = "0.0*x^1".toList := by
    simp only [specTerm, formatFixed_zero_two]; decide
  have h3 : specTerm 2 2 (-5 / 2 : ℚ) = "-2.5*x^2".toList := by
    simp only [specTerm, formatFixed_neg52]; decide
  simp only [List.enum, List.enumFrom_cons, List.map_cons, List.map_nil, h1, h2, h3]
  decide

/-- Witness for C6 (amended) at `θ = [7]`, precision 3. -/
theorem c6_polynomial_formatting_witness :
    (1 ≤ 3)
    ∧ print_polynomial [(7 : ℚ)] 3 =
        .ok (String.mk (List.intercalate " + ".toList
          (([(7 : ℚ)].enum).map (fun ic => specTerm 3 ic.1 ic.2)))) :=
  ⟨by norm_num, c6_polynomial_formatting.1 [(7 : ℚ)] 3 (by norm_num)⟩

/-- C6, counterexample: at precision 0 the first coefficient `0` formats to
the single character `"0"`, and the stripping loop's read of
`polynomial[-2]` raises `IndexError`, so `print_polynomial` does not return
a string for every `θ` and every precision. -/
theorem c6_counterexample_precision_zero :
    print_polynomial [0, 1] 0 = .error .indexError := by
  rw [print_polynomial]
  have h : printPolyAux 0 ([(0 : ℚ), 1]).length 0 [0, 1] [] = .error .indexError := by
    rw [printPolyAux, formatFixed_zero_zero]
    rfl
  rw [h]

/-- C10: `print_polynomial` is not total: on `θ = [0.0]` with precision 0
the coefficient formats to the single character `"0"`, the stripping loop
indexes position `-2` of that length-1 string, and the call raises
`IndexError` instead of returning a string. -/
theorem c10_precision_zero_crash :
    print_polynomial [0] 0 = .error .indexError := by
  rw [print_polynomial]
  have h : printPolyAux 0 ([(0 : ℚ)]).length 0 [0] [] = .error .indexError := by
    rw [printPolyAux, formatFixed_zero_zero]
    rfl
  rw [h]

end MSiD
